import Mathlib

/-!
A verification development for the dynamic-value container layer
(`lib/base/array.cpp`, `lib/base/dictionary.cpp`) and the perfdata writer
pipeline (`lib/perfdata/graphitewriter.cpp`, `lib/perfdata/opentsdbwriter.cpp`)
of the Icinga 2 slice.

The C++ sources are shallowly embedded as pure Lean functions over list
snapshots: every RCU `copy_update` is modelled as a function from the old
snapshot to the new one (the sequential semantics of a successful CAS), and
every throwing operation returns `Except`.
-/

set_option maxHeartbeats 1600000

deriving instance DecidableEq for Except

namespace Icinga

/-- The dynamic `Value` union (`base/value.hpp`): a tagged union over empty,
boolean, number and string.  The object-reference tag is not needed by any
container operation modelled here and is omitted. -/
inductive Value where
  | empty
  | boolean (b : Bool)
  | number (q : ℚ)
  | str (s : String)
deriving DecidableEq

/-- `Value::Clone` (`base/value.cpp`): deep-clones object references; on the
scalar tags modelled here it returns the value itself. -/
def Value.clone (v : Value) : Value := v

/-- `DebugInfo` (`base/debuginfo.hpp`): the source-location payload that the
scripting layer hands to `GetFieldByName`/`SetFieldByName`. -/
structure DebugInfo where
  path : String
  firstLine : ℤ
  firstColumn : ℤ
  lastLine : ℤ
  lastColumn : ℤ
deriving DecidableEq

/-- The exceptions thrown by the container operations modelled here:
`ScriptError` (`base/exception.hpp`) carries a message and the caller's
`DebugInfo`; `std::invalid_argument` (thrown by `Convert::ToLong` on a
string that does not parse as an integer) carries only a message. -/
inductive ScriptingError where
  | scriptError (message : String) (di : DebugInfo)
  | invalidArgument (message : String)
deriving DecidableEq

namespace Convert

/-- Modelled from the spec: `Convert::ToLong` (`base/convert.cpp`, not part of
this slice) parses the whole string as a (signed, base-10) integer and throws
`std::invalid_argument` when the string does not parse (§4.2: "if s parses as
an integer index"; the catch-all in `Array::GetFieldByName` witnesses the
throwing behaviour).  `none` models the throw.  The conversion range-checks:
a value outside the range of a 64-bit `long` fails the conversion as well. -/
def ToLong (s : String) : Option ℤ :=
  match s.data with
  | [] => none
  | '-' :: rest =>
    if rest ≠ [] ∧ rest.all Char.isDigit then
      let v : ℤ := -((rest.foldl (fun acc c => 10 * acc + (c.toNat - '0'.toNat)) 0 : ℕ) : ℤ)
      if -(2 ^ 63) ≤ v ∧ v < 2 ^ 63 then some v else none
    else
      none
  | l =>
    if l.all Char.isDigit then
      let v : ℤ := ((l.foldl (fun acc c => 10 * acc + (c.toNat - '0'.toNat)) 0 : ℕ) : ℤ)
      if -(2 ^ 63) ≤ v ∧ v < 2 ^ 63 then some v else none
    else
      none

/-- `Convert::ToString` on an integer: decimal rendering. -/
def ToStringInt (n : ℤ) : String := toString n

/-- Modelled from the spec: `Convert::ToString` on a double
(`base/convert.cpp`, not part of this slice).  §6: the value is "a decimal
number (standard formatting of a double)"; integral values print with no
decimal point.  Only integral values are exercised by the claims; the
non-integral branch renders the rational as `num/den` and is never relied
upon. -/
def ToStringQ (q : ℚ) : String :=
  if q.den = 1 then toString q.num else toString q

/-- `Convert::ToString` on a `String` returns it unchanged. -/
def ToStringStr (s : String) : String := s

end Convert

/-- `static_cast<long>` applied to a double timestamp: truncation toward
zero, on a rational `q = num/den`. -/
def castToLong (q : ℚ) : ℤ := Int.tdiv q.num q.den

/-- The implicit `long` → `int` conversion performed by
`int index = Convert::ToLong(field)` (`array.cpp` lines 241 and 259):
modular (two's-complement) narrowing into `[-2^31, 2^31)`, so for example
`2^32` narrows to `0` and `-2^32` narrows to `0`. -/
def narrowToInt (n : ℤ) : ℤ := (n + 2 ^ 31) % 2 ^ 32 - 2 ^ 31

/-! ### `boost::algorithm::replace_all`

`boost::replace_all(result, pat, rep)` scans left to right; at each position,
if the (non-empty) pattern matches it emits the replacement and resumes after
the matched occurrence, otherwise it keeps the character and moves on.
-/

/-- Fuelled worker for `replaceAllCore`; the fuel only serves structural
termination and is irrelevant once it dominates the input length
(`replaceAllGo_congr`). -/
def replaceAllGo (p : Char) (ps rep : List Char) : ℕ → List Char → List Char
  | _, [] => []
  | 0, l => l
  | fuel + 1, c :: rest =>
    if (p :: ps).isPrefixOf (c :: rest) then
      rep ++ replaceAllGo p ps rep fuel (rest.drop ps.length)
    else
      c :: replaceAllGo p ps rep fuel rest

/-- One pass of `boost::replace_all` with non-empty pattern `p :: ps` and
replacement `rep`, on a character list: scan left to right, at a match emit
the replacement and resume after the occurrence. -/
def replaceAllCore (p : Char) (ps rep l : List Char) : List Char :=
  replaceAllGo p ps rep l.length l

/-- `boost::replace_all(s, pat, rep)` on `String`s (no-op for an empty
pattern, which never occurs in the sources). -/
def boostReplaceAll (s pat rep : String) : String :=
  match pat.data with
  | [] => s
  | p :: ps => ⟨replaceAllCore p ps rep.data s.data⟩

/-- Substitution of a single character, the effect of a one-character
`boost::replace_all`. -/
def substChar (c d x : Char) : Char := if x = c then d else x

/-- The `"::"` → `"."` pass of `boost::replace_all`, written with structural
recursion (shown equal to `replaceAllCore ':' [':'] ['.']` below). -/
def replaceColons : List Char → List Char
  | [] => []
  | [c] => [c]
  | c :: d :: rest =>
    if c = ':' ∧ d = ':' then '.' :: replaceColons rest
    else c :: replaceColons (d :: rest)

/-- No two adjacent colons: the shape the `"::"` matcher looks for. -/
def NoAdjColons (l : List Char) : Prop :=
  l.Chain' (fun a b => ¬(a = ':' ∧ b = ':'))

namespace GraphiteWriter

/-- `GraphiteWriter::EscapeMetric` (`graphitewriter.cpp`): replace each of
`' '`, `'.'`, `'\'`, `'/'` by `'_'`. -/
def EscapeMetric (str : String) : String :=
  boostReplaceAll (boostReplaceAll (boostReplaceAll (boostReplaceAll str " " "_") "." "_") "\\" "_") "/" "_"

/-- `GraphiteWriter::EscapeMetricLabel` (`graphitewriter.cpp`): replace each
of `' '`, `'\'`, `'/'` by `'_'`, then the two-byte sequence `"::"` by
`"."`. -/
def EscapeMetricLabel (str : String) : String :=
  boostReplaceAll (boostReplaceAll (boostReplaceAll (boostReplaceAll str " " "_") "\\" "_") "/" "_") "::" "."

end GraphiteWriter

namespace OpenTsdbWriter

/-- `OpenTsdbWriter::EscapeTag` (`opentsdbwriter.cpp`): replace `' '` and
`'\'` by `'_'`. -/
def EscapeTag (str : String) : String :=
  boostReplaceAll (boostReplaceAll str " " "_") "\\" "_"

/-- `OpenTsdbWriter::EscapeMetric` (`opentsdbwriter.cpp`): replace each of
`' '`, `'.'`, `'\'`, `':'` by `'_'`. -/
def EscapeMetric (str : String) : String :=
  boostReplaceAll (boostReplaceAll (boostReplaceAll (boostReplaceAll str " " "_") "." "_") "\\" "_") ":" "_"

/-- The escaped perfdata key built in `OpenTsdbWriter::SendPerfdata`
(`opentsdbwriter.cpp` lines 196–197): `EscapeMetric` on the label, then
`boost::algorithm::replace_all(escaped_key, "::", ".")`. -/
def escapedPerfdataKey (label : String) : String :=
  boostReplaceAll (EscapeMetric label) "::" "."

end OpenTsdbWriter

/-! ### The dynamic array (`base/array.cpp`)

An array snapshot is a `List Value`; each RCU `copy_update` is the function
from the old snapshot to the published one.
-/

namespace Array

/-- `Array::Insert` (`array.cpp`): `ASSERT(index <= data->size())`, then
`data->insert(data->begin() + index, value)`.  The assertion failure (the
spec's "`i > len` fails") is modelled as `none`. -/
def Insert (data : List Value) (index : ℕ) (value : Value) : Option (List Value) :=
  if index ≤ data.length then
    some (data.take index ++ value :: data.drop index)
  else
    none

/-- `std::vector::resize` as used by `Array::SetFieldByName`: truncate, or
pad with default-constructed (empty) values. -/
def vectorResize (data : List Value) (newSize : ℕ) : List Value :=
  if newSize ≤ data.length then data.take newSize
  else data ++ List.replicate (newSize - data.length) Value.empty

/-- `Array::GetFieldByName` (`array.cpp` lines 239–255): try
`Convert::ToLong(field)`; on a conversion throw, delegate to the object
prototype lookup (whose result the caller provides as `protoResult`).  The
assignment `int index = Convert::ToLong(field)` narrows the parsed `long` to
`int` (`narrowToInt`); a narrowed index that is negative or not below the
length throws `ScriptError` with the caller's `DebugInfo`; otherwise the
element at the narrowed index is returned. -/
def GetFieldByName (data : List Value) (field : String) (debugInfo : DebugInfo)
    (protoResult : Except ScriptingError Value) : Except ScriptingError Value :=
  match Convert.ToLong field with
  | none => protoResult
  | some parsed =>
    let index := narrowToInt parsed
    if index < 0 ∨ data.length ≤ index.toNat then
      .error (.scriptError ("Array index \x27" ++ Convert.ToStringInt index ++
        "\x27 is out of bounds.") debugInfo)
    else
      .ok (data.getD index.toNat Value.empty)

/-- `Array::SetFieldByName` (`array.cpp` lines 257–270):
`Convert::ToLong(field)` is *not* guarded by a catch, so an unparseable
field propagates the conversion's `std::invalid_argument`.  The assignment
`int index = Convert::ToLong(field)` narrows the parsed `long` to `int`
(`narrowToInt`); a negative narrowed index throws `ScriptError` with the
caller's `DebugInfo`; otherwise the copy-update resizes to `index + 1` when
`index ≥ size` and assigns `at(index) = value`. -/
def SetFieldByName (data : List Value) (field : String) (value : Value)
    (debugInfo : DebugInfo) : Except ScriptingError (List Value) :=
  match Convert.ToLong field with
  | none =>
    .error (.invalidArgument ("Can\x27t convert \x27" ++ field ++ "\x27 to an integer."))
  | some parsed =>
    let index := narrowToInt parsed
    if index < 0 then
      .error (.scriptError ("Array index \x27" ++ Convert.ToStringInt index ++
        "\x27 is out of bounds.") debugInfo)
    else
      .ok ((if data.length ≤ index.toNat then vectorResize data (index.toNat + 1)
            else data).set index.toNat value)

end Array

/-! ### The dynamic mapping (`base/dictionary.cpp`) -/

/-- `DictionaryPair` (`dictionary.hpp`): `std::pair<String, Value>`. -/
abbrev DictionaryPair := String × Value

/-- `DictionaryData` (`dictionary.hpp`): `std::vector<DictionaryPair>`. -/
abbrev DictionaryData := List DictionaryPair

/-- Lexicographic comparison of character lists, the semantics of
`icinga::String::operator<` (lexicographic byte order on the string data,
§4.3 "Ordering for sort: lexicographic byte order on keys"). -/
def charListLt : List Char → List Char → Bool
  | [], [] => false
  | [], _ :: _ => true
  | _ :: _, [] => false
  | a :: as, b :: bs =>
    if a < b then true
    else if b < a then false
    else charListLt as bs

/-- `a < b` on `icinga::String`. -/
def strLt (a b : String) : Bool := charListLt a.data b.data

namespace Dictionary

/-- The non-strict key order induced by the comparator
`Dictionary::KeyLessComparer` / `a.first < b.first`: `a ≤ b` iff `¬(b < a)`.
A sequence sorted by `std::sort` with the strict comparator is exactly a
sequence pairwise ordered by this relation. -/
def keyLE (a b : DictionaryPair) : Prop := strLt b.1 a.1 = false

instance : DecidableRel keyLE := fun a b =>
  inferInstanceAs (Decidable (strLt b.1 a.1 = false))

/-- Worker for `uniqueAdj`: drop elements whose key equals the key of the
last kept element `last`, exactly as `std::unique` compares each element
against the last one it kept. -/
def uniqueAdjGo (last : DictionaryPair) : DictionaryData → DictionaryData
  | [] => []
  | q :: rest => if q.1 = last.1 then uniqueAdjGo last rest else q :: uniqueAdjGo q rest

/-- The `data.erase(std::unique(...), data.end())` step of the
`Dictionary(DictionaryData)` constructor: remove adjacent pairs with equal
keys, keeping the first of each run. -/
def uniqueAdj : DictionaryData → DictionaryData
  | [] => []
  | p :: rest => p :: uniqueAdjGo p rest

/-- The `Dictionary(DictionaryData)` constructor (`dictionary.cpp` lines
38–49): sort by key, then `unique` keeping the first of each equal-key run.
The `std::sort` call with comparator `a.first < b.first` is modelled as a
stable sort by key — §9 of the spec fixes "stable-sort, first occurrence
wins" as the contract of this constructor. -/
def ofData (data : DictionaryData) : DictionaryData :=
  uniqueAdj (data.insertionSort keyLE)

/-- `Dictionary::Set` (`dictionary.cpp` lines 109–121): `std::lower_bound`
by `KeyLessComparer` (the first position whose key is not less than `key`,
reached here by walking past smaller keys); replace in place when the key is
present, otherwise insert at that position. -/
def set (d : DictionaryData) (key : String) (value : Value) : DictionaryData :=
  match d with
  | [] => [(key, value)]
  | p :: rest =>
    if strLt p.1 key then p :: set rest key value
    else if p.1 = key then (key, value) :: rest
    else (key, value) :: p :: rest

/-- `Dictionary::Remove` (`dictionary.cpp` lines 162–172): `std::lower_bound`
by `KeyLessComparer`; erase when the key is present, no-op otherwise. -/
def remove (d : DictionaryData) (key : String) : DictionaryData :=
  match d with
  | [] => []
  | p :: rest =>
    if strLt p.1 key then p :: remove rest key
    else if p.1 = key then rest
    else p :: rest

/-- `Dictionary::CopyTo` (`dictionary.cpp` lines 182–187): iterate the
source snapshot in order and `Set` each pair on the destination. -/
def copyTo (src dest : DictionaryData) : DictionaryData :=
  src.foldl (fun acc p => set acc p.1 p.2) dest

/-- `Dictionary::ShallowClone` (`dictionary.cpp` line 196): a new dictionary
built by the `Dictionary(DictionaryData)` constructor from the current
snapshot. -/
def shallowClone (d : DictionaryData) : DictionaryData := ofData d

/-- `Dictionary::Clone` (`dictionary.cpp` lines 205–214): clone each value,
then build a new dictionary through the `Dictionary(DictionaryData)`
constructor. -/
def clone (d : DictionaryData) : DictionaryData :=
  ofData (d.map (fun p => (p.1, p.2.clone)))

/-- The mapping snapshots reachable by any sequence of mapping operations:
default construction, `Dictionary(DictionaryData)` construction, `Set`,
`Remove`, `Clear` (a fresh empty snapshot), `CopyTo`, `ShallowClone` and
`Clone`. -/
inductive Reachable : DictionaryData → Prop
  | empty : Reachable []
  | construct (data : DictionaryData) : Reachable (ofData data)
  | set (d : DictionaryData) (k : String) (v : Value) :
      Reachable d → Reachable (Dictionary.set d k v)
  | remove (d : DictionaryData) (k : String) :
      Reachable d → Reachable (Dictionary.remove d k)
  | copyTo (src d : DictionaryData) :
      Reachable d → Reachable (Dictionary.copyTo src d)
  | shallowClone (d : DictionaryData) : Reachable (Dictionary.shallowClone d)
  | clone (d : DictionaryData) : Reachable (Dictionary.clone d)

/-- Strictly ascending keys: the mapping sort invariant (§3 of the spec),
in the lexicographic byte order of `icinga::String`. -/
def SortedKeys (d : DictionaryData) : Prop :=
  d.Pairwise (fun a b => strLt a.1 b.1 = true)

end Dictionary

/-! ### The perfdata writers (`perfdata/graphitewriter.cpp`,
`perfdata/opentsdbwriter.cpp`) -/

/-- `PerfdataValue` (`base/perfdatavalue.hpp`, external to this slice): a
labelled numeric datum with optional thresholds; `none` models an empty
(absent) `Value` field. -/
structure PerfdataValue where
  label : String
  value : ℚ
  crit : Option ℚ
  warn : Option ℚ
  min : Option ℚ
  max : Option ℚ
deriving DecidableEq

/-- Truthiness of an optional numeric `Value` as used by
`if (pdv->GetCrit())`: an empty value and the number zero are falsy. -/
def valueTruthy : Option ℚ → Bool
  | none => false
  | some q => q != 0

/-- The double a threshold `Value` converts to when passed on to
`SendMetric`: an empty value converts to 0. -/
def valueToDouble : Option ℚ → ℚ
  | none => 0
  | some q => q

namespace GraphiteWriter

/-- The metric line built by `GraphiteWriter::SendMetric` (`graphitewriter.cpp`
lines 309–319): `<prefix>.<name> <value> <ts-as-long>\n`. -/
def sendMetricLine (pfx name : String) (value ts : ℚ) : String :=
  pfx ++ "." ++ name ++ " " ++ Convert.ToStringQ value ++ " " ++
    Convert.ToStringInt (castToLong ts) ++ "\n"

/-- The `(name, value)` pairs that the loop body of
`GraphiteWriter::SendPerfdata` (`graphitewriter.cpp` lines 292–305) passes to
`SendMetric` for one parsed perfdata value: `.value` always, and, when
thresholds are enabled, `.crit`/`.warn`/`.min`/`.max` each guarded by the
truthiness of the corresponding field. -/
def perfdataCalls (sendThresholds : Bool) (pdv : PerfdataValue) : List (String × ℚ) :=
  let escapedKey := EscapeMetricLabel pdv.label
  (escapedKey ++ ".value", pdv.value) ::
    (if sendThresholds then
      (if valueTruthy pdv.crit then [(escapedKey ++ ".crit", valueToDouble pdv.crit)] else []) ++
      (if valueTruthy pdv.warn then [(escapedKey ++ ".warn", valueToDouble pdv.warn)] else []) ++
      (if valueTruthy pdv.min then [(escapedKey ++ ".min", valueToDouble pdv.min)] else []) ++
      (if valueTruthy pdv.max then [(escapedKey ++ ".max", valueToDouble pdv.max)] else [])
    else [])

end GraphiteWriter

namespace OpenTsdbWriter

/-- The metric line built by `OpenTsdbWriter::SendMetric`
(`opentsdbwriter.cpp` lines 212–234): `tags_string` accumulates
`" " + key + "=" + Convert::ToString(value)` over the (key-ascending)
`std::map`, and the line is
`put <metric> <ts-as-long> <value> <tags_string>\n` — note the explicit
`<< " "` *before* `tags_string`, which itself starts with a space. -/
def sendMetricLine (metric : String) (tags : List (String × String)) (value ts : ℚ) : String :=
  let tagsString := tags.foldl (fun acc tag => acc ++ (" " ++ tag.1 ++ "=" ++
    Convert.ToStringStr tag.2)) ""
  "put " ++ metric ++ " " ++ Convert.ToStringInt (castToLong ts) ++ " " ++
    Convert.ToStringQ value ++ " " ++ tagsString ++ "\n"

end OpenTsdbWriter

/-! ## Theorems -/

theorem replaceAllGo_congr (p : Char) (ps rep : List Char) :
    ∀ (f₁ : ℕ) (l : List Char) (f₂ : ℕ), l.length ≤ f₁ → l.length ≤ f₂ →
      replaceAllGo p ps rep f₁ l = replaceAllGo p ps rep f₂ l := by
  intro f₁
  induction f₁ with
  | zero =>
    intro l f₂ h₁ _
    have : l = [] := List.eq_nil_of_length_eq_zero (Nat.le_zero.mp h₁)
    subst this
    cases f₂ <;> rfl
  | succ f ih =>
    intro l f₂ h₁ h₂
    cases l with
    | nil => cases f₂ <;> rfl
    | cons c rest =>
      cases f₂ with
      | zero => simp at h₂
      | succ f' =>
        simp only [replaceAllGo]
        by_cases hp : (p :: ps).isPrefixOf (c :: rest)
        · simp only [hp, if_true]
          have hd : (rest.drop ps.length).length ≤ f := by
            have := List.length_drop ps.length rest
            simp only [List.length_cons] at h₁
            omega
          have hd' : (rest.drop ps.length).length ≤ f' := by
            have := List.length_drop ps.length rest
            simp only [List.length_cons] at h₂
            omega
          rw [ih _ f' hd hd']
        · simp only [hp, Bool.false_eq_true, if_false]
          have hr : rest.length ≤ f := by simp only [List.length_cons] at h₁; omega
          have hr' : rest.length ≤ f' := by simp only [List.length_cons] at h₂; omega
          rw [ih _ f' hr hr']

theorem replaceAllCore_nil (p : Char) (ps rep : List Char) :
    replaceAllCore p ps rep [] = [] := rfl

theorem replaceAllCore_cons (p : Char) (ps rep : List Char) (c : Char) (rest : List Char) :
    replaceAllCore p ps rep (c :: rest) =
      if (p :: ps).isPrefixOf (c :: rest) then
        rep ++ replaceAllCore p ps rep (rest.drop ps.length)
      else
        c :: replaceAllCore p ps rep rest := by
  show replaceAllGo p ps rep (rest.length + 1) (c :: rest) = _
  simp only [replaceAllGo]
  by_cases hp : (p :: ps).isPrefixOf (c :: rest)
  · simp only [hp, if_true]
    congr 1
    exact replaceAllGo_congr p ps rep rest.length (rest.drop ps.length) _
      (by simp) le_rfl
  · simp only [hp, Bool.false_eq_true, if_false]
    rfl

theorem replaceAllCore_single (c d : Char) (l : List Char) :
    replaceAllCore c [] [d] l = l.map (substChar c d) := by
  induction l with
  | nil => rfl
  | cons x rest ih =>
    rw [replaceAllCore_cons]
    by_cases hx : x = c
    · subst hx
      simp only [List.isPrefixOf, List.isPrefixOf_nil_left, Bool.and_true, beq_self_eq_true,
        if_true, List.drop_zero, List.map_cons]
      simp [ih, substChar]
    · have : ¬ ([c].isPrefixOf (x :: rest) = true) := by
        simp [List.isPrefixOf]
        intro h
        exact absurd h.symm hx
      simp only [this, if_false, List.map_cons]
      simp [ih, substChar, hx]

theorem mem_map_substChar {c d x : Char} {l : List Char}
    (h : x ∈ l.map (substChar c d)) : x = d ∨ (x ∈ l ∧ x ≠ c) := by
  obtain ⟨y, hy, rfl⟩ := List.mem_map.mp h
  by_cases hyc : y = c
  · subst hyc; left; simp [substChar]
  · right
    constructor
    · simpa [substChar, hyc] using hy
    · simp [substChar, hyc]

theorem map_substChar_id {c d : Char} {l : List Char} (h : c ∉ l) :
    l.map (substChar c d) = l := by
  induction l with
  | nil => rfl
  | cons x rest ih =>
    simp only [List.mem_cons, not_or] at h
    have hxc : ¬ (x = c) := fun hx => h.1 hx.symm
    simp only [List.map_cons, substChar, if_neg hxc]
    rw [ih h.2]

theorem not_mem_map_substChar {c d x : Char} {l : List Char}
    (hx : x ∉ l ∨ x = c) (hd : x ≠ d) : x ∉ l.map (substChar c d) := by
  intro hmem
  rcases mem_map_substChar hmem with h | ⟨hl, hne⟩
  · exact hd h
  · rcases hx with h' | h'
    · exact h' hl
    · exact hne h'

theorem replaceAllCore_colons (l : List Char) :
    replaceAllCore ':' [':'] ['.'] l = replaceColons l := by
  induction l using replaceColons.induct with
  | case1 => rfl
  | case2 c =>
    rw [replaceAllCore_cons]
    simp [List.isPrefixOf, replaceColons, replaceAllCore_nil]
  | case3 c d rest h ih =>
    obtain ⟨rfl, rfl⟩ := h
    rw [replaceAllCore_cons]
    simp only [List.isPrefixOf, beq_self_eq_true, Bool.and_self, Bool.true_and,
      List.isPrefixOf_nil_left, if_true, List.length_cons, List.length_nil, List.drop_succ_cons,
      List.drop_zero, List.singleton_append]
    rw [ih]
    simp [replaceColons]
  | case4 c d rest h ih =>
    rw [replaceAllCore_cons]
    have hpre : ¬ ([':', ':'].isPrefixOf (c :: d :: rest) = true) := by
      intro hb
      simp only [List.isPrefixOf, List.isPrefixOf_nil_left, Bool.and_true, Bool.and_eq_true,
        beq_iff_eq] at hb
      exact h ⟨hb.1.symm, hb.2.symm⟩
    simp only [hpre, if_false, Bool.false_eq_true]
    rw [ih]
    simp only [replaceColons, if_neg h]

theorem replaceColons_head? (l : List Char) :
    (replaceColons l).head? = l.head? ∨ (replaceColons l).head? = some '.' := by
  match l with
  | [] => left; rfl
  | [c] => left; rfl
  | c :: d :: rest =>
    by_cases h : c = ':' ∧ d = ':'
    · right; simp [replaceColons, h]
    · left; simp [replaceColons, h]

theorem replaceColons_noAdjColons (l : List Char) : NoAdjColons (replaceColons l) := by
  induction l using replaceColons.induct with
  | case1 => simp [replaceColons, NoAdjColons]
  | case2 c => simp [replaceColons, NoAdjColons]
  | case3 c d rest h ih =>
    simp only [replaceColons, if_pos h]
    refine List.chain'_cons'.mpr ⟨?_, ih⟩
    intro y _
    simp
  | case4 c d rest h ih =>
    simp only [replaceColons, if_neg h]
    refine List.chain'_cons'.mpr ⟨?_, ih⟩
    intro y hy
    rintro ⟨rfl, rfl⟩
    rcases replaceColons_head? (d :: rest) with h' | h'
    · rw [hy] at h'
      simp only [List.head?_cons, Option.some.injEq] at h'
      exact h ⟨rfl, h'.symm⟩
    · rw [hy] at h'
      simp at h'

theorem replaceColons_id {l : List Char} (h : NoAdjColons l) : replaceColons l = l := by
  induction l using replaceColons.induct with
  | case1 => rfl
  | case2 c => rfl
  | case3 c d rest hcd ih =>
    exfalso
    have := List.chain'_cons.mp h
    exact this.1 hcd
  | case4 c d rest hcd ih =>
    simp only [replaceColons, if_neg hcd]
    rw [ih (List.chain'_cons.mp h).2]

theorem mem_replaceColons {x : Char} {l : List Char} (h : x ∈ replaceColons l) :
    x ∈ l ∨ x = '.' := by
  induction l using replaceColons.induct with
  | case1 => simp [replaceColons] at h
  | case2 c => simp [replaceColons] at h; simp [h]
  | case3 c d rest hcd ih =>
    simp only [replaceColons, if_pos hcd, List.mem_cons] at h
    rcases h with rfl | h
    · right; rfl
    · rcases ih h with h' | h'
      · left; simp [h']
      · right; exact h'
  | case4 c d rest hcd ih =>
    simp only [replaceColons, if_neg hcd, List.mem_cons] at h
    rcases h with rfl | h
    · left; simp
    · rcases ih h with h' | h'
      · left
        simp only [List.mem_cons] at h' ⊢
        tauto
      · right; exact h'

theorem noAdjColons_of_no_colon {l : List Char} (h : ∀ a ∈ l, a ≠ ':') :
    NoAdjColons l := by
  induction l with
  | nil => simp [NoAdjColons]
  | cons x rest ih =>
    refine List.chain'_cons'.mpr ⟨?_, ih fun a ha => h a (List.mem_cons_of_mem _ ha)⟩
    rintro y _ ⟨rfl, -⟩
    exact h ':' (List.mem_cons_self _ _) rfl

/-! ### The lexicographic byte order -/

theorem charListLt_irrefl : ∀ l : List Char, charListLt l l = false := by
  intro l
  induction l with
  | nil => rfl
  | cons a as ih => simp [charListLt, lt_irrefl, ih]

theorem charListLt_trans : ∀ (l₁ l₂ l₃ : List Char), charListLt l₁ l₂ = true →
    charListLt l₂ l₃ = true → charListLt l₁ l₃ = true := by
  intro l₁
  induction l₁ with
  | nil =>
    intro l₂ l₃ h₁ h₂
    cases l₂ with
    | nil => simp [charListLt] at h₁
    | cons b bs =>
      cases l₃ with
      | nil => simp [charListLt] at h₂
      | cons c cs => simp [charListLt]
  | cons a as ih =>
    intro l₂ l₃ h₁ h₂
    cases l₂ with
    | nil => simp [charListLt] at h₁
    | cons b bs =>
      cases l₃ with
      | nil => simp [charListLt] at h₂
      | cons c cs =>
        simp only [charListLt] at h₁ h₂ ⊢
        by_cases hab : a < b
        · by_cases hbc : b < c
          · simp [lt_trans hab hbc]
          · by_cases hcb : c < b
            · simp [hbc, hcb] at h₂
            · have hbceq : b = c := le_antisymm (le_of_not_lt hcb) (le_of_not_lt hbc)
              subst hbceq
              simp [hab]
        · by_cases hba : b < a
          · simp [hab, hba] at h₁
          · have habeq : a = b := le_antisymm (le_of_not_lt hba) (le_of_not_lt hab)
            subst habeq
            simp only [lt_irrefl, if_false] at h₁
            by_cases hac : a < c
            · simp [hac]
            · by_cases hca : c < a
              · simp [hac, hca] at h₂
              · have haceq : a = c := le_antisymm (le_of_not_lt hca) (le_of_not_lt hac)
                subst haceq
                simp only [lt_irrefl, if_false] at h₂ ⊢
                exact ih _ _ h₁ h₂

theorem charListLt_antisymm : ∀ (l₁ l₂ : List Char), charListLt l₁ l₂ = false →
    charListLt l₂ l₁ = false → l₁ = l₂ := by
  intro l₁
  induction l₁ with
  | nil =>
    intro l₂ h₁ _
    cases l₂ with
    | nil => rfl
    | cons b bs => simp [charListLt] at h₁
  | cons a as ih =>
    intro l₂ h₁ h₂
    cases l₂ with
    | nil => simp [charListLt] at h₂
    | cons b bs =>
      simp only [charListLt] at h₁ h₂
      by_cases hab : a < b
      · simp [hab] at h₁
      · by_cases hba : b < a
        · simp [hba, hab] at h₂
        · have habeq : a = b := le_antisymm (le_of_not_lt hba) (le_of_not_lt hab)
          subst habeq
          simp only [lt_irrefl, if_false] at h₁ h₂
          rw [ih bs h₁ h₂]

theorem charListLt_asymm {l₁ l₂ : List Char} (h : charListLt l₁ l₂ = true) :
    charListLt l₂ l₁ = false := by
  by_contra hne
  have h₂ : charListLt l₂ l₁ = true := by
    cases hb : charListLt l₂ l₁ with
    | false => exact absurd hb hne
    | true => rfl
  have := charListLt_trans _ _ _ h h₂
  rw [charListLt_irrefl] at this
  exact Bool.false_ne_true this

theorem charListLt_trichotomy (l₁ l₂ : List Char) :
    charListLt l₁ l₂ = true ∨ charListLt l₂ l₁ = true ∨ l₁ = l₂ := by
  cases h₁ : charListLt l₁ l₂ with
  | true => exact Or.inl rfl
  | false =>
    cases h₂ : charListLt l₂ l₁ with
    | true => exact Or.inr (Or.inl rfl)
    | false => exact Or.inr (Or.inr (charListLt_antisymm _ _ h₁ h₂))

theorem strLt_irrefl (a : String) : strLt a a = false := charListLt_irrefl a.data

theorem strLt_trans {a b c : String} (h₁ : strLt a b = true) (h₂ : strLt b c = true) :
    strLt a c = true := charListLt_trans _ _ _ h₁ h₂

theorem strLt_antisymm {a b : String} (h₁ : strLt a b = false) (h₂ : strLt b a = false) :
    a = b := String.ext (charListLt_antisymm _ _ h₁ h₂)

theorem strLt_asymm {a b : String} (h : strLt a b = true) : strLt b a = false :=
  charListLt_asymm h

theorem strLt_trichotomy (a b : String) :
    strLt a b = true ∨ strLt b a = true ∨ a = b := by
  rcases charListLt_trichotomy a.data b.data with h | h | h
  · exact Or.inl h
  · exact Or.inr (Or.inl h)
  · exact Or.inr (Or.inr (String.ext h))

/-- `a < b` and `b ≤ c` give `a < c`. -/
theorem strLt_of_lt_of_nlt {a b c : String} (h₁ : strLt a b = true)
    (h₂ : strLt c b = false) : strLt a c = true := by
  rcases strLt_trichotomy a c with h | h | h
  · exact h
  · have hcb : strLt c b = true := strLt_trans h h₁
    rw [hcb] at h₂
    exact absurd h₂ (by simp)
  · subst h
    rw [h₁] at h₂
    exact absurd h₂ (by simp)

/-- `a ≤ b` and `b ≤ c` give `a ≤ c`. -/
theorem strLt_le_trans {a b c : String} (h₁ : strLt b a = false)
    (h₂ : strLt c b = false) : strLt c a = false := by
  cases hca : strLt c a with
  | false => rfl
  | true =>
    have := strLt_of_lt_of_nlt hca h₁
    rw [this] at h₂
    exact absurd h₂ (by simp)

/-! ### Character-level descriptions of the escape functions -/

theorem data_replace_space (s : String) :
    (boostReplaceAll s " " "_").data = s.data.map (substChar ' ' '_') :=
  replaceAllCore_single ' ' '_' s.data

theorem data_replace_dot (s : String) :
    (boostReplaceAll s "." "_").data = s.data.map (substChar '.' '_') :=
  replaceAllCore_single '.' '_' s.data

theorem data_replace_backslash (s : String) :
    (boostReplaceAll s "\\" "_").data = s.data.map (substChar '\\' '_') :=
  replaceAllCore_single '\\' '_' s.data

theorem data_replace_slash (s : String) :
    (boostReplaceAll s "/" "_").data = s.data.map (substChar '/' '_') :=
  replaceAllCore_single '/' '_' s.data

theorem data_replace_colon (s : String) :
    (boostReplaceAll s ":" "_").data = s.data.map (substChar ':' '_') :=
  replaceAllCore_single ':' '_' s.data

theorem data_replace_colons (s : String) :
    (boostReplaceAll s "::" ".").data = replaceColons s.data :=
  replaceAllCore_colons s.data

theorem data_graphite_escapeMetric (s : String) :
    (GraphiteWriter.EscapeMetric s).data =
      (((s.data.map (substChar ' ' '_')).map (substChar '.' '_')).map
        (substChar '\\' '_')).map (substChar '/' '_') := by
  unfold GraphiteWriter.EscapeMetric
  rw [data_replace_slash, data_replace_backslash, data_replace_dot, data_replace_space]

theorem data_graphite_escapeMetricLabel (s : String) :
    (GraphiteWriter.EscapeMetricLabel s).data =
      replaceColons (((s.data.map (substChar ' ' '_')).map (substChar '\\' '_')).map
        (substChar '/' '_')) := by
  unfold GraphiteWriter.EscapeMetricLabel
  rw [data_replace_colons, data_replace_slash, data_replace_backslash, data_replace_space]

theorem data_opentsdb_escapeMetric (s : String) :
    (OpenTsdbWriter.EscapeMetric s).data =
      (((s.data.map (substChar ' ' '_')).map (substChar '.' '_')).map
        (substChar '\\' '_')).map (substChar ':' '_') := by
  unfold OpenTsdbWriter.EscapeMetric
  rw [data_replace_colon, data_replace_backslash, data_replace_dot, data_replace_space]

/-- No replaced character survives `GraphiteWriter::EscapeMetric`. -/
theorem graphite_escapeMetric_no_special (s : String) :
    ∀ x ∈ (GraphiteWriter.EscapeMetric s).data,
      x ≠ ' ' ∧ x ≠ '.' ∧ x ≠ '\\' ∧ x ≠ '/' := by
  rw [data_graphite_escapeMetric]
  intro x hx
  refine ⟨fun hsp => ?_, fun hdot => ?_, fun hbs => ?_, fun hsl => ?_⟩
  · subst hsp
    exact not_mem_map_substChar (Or.inl (not_mem_map_substChar (Or.inl
      (not_mem_map_substChar (Or.inl (not_mem_map_substChar (Or.inr rfl) (by decide)))
        (by decide))) (by decide))) (by decide) hx
  · subst hdot
    exact not_mem_map_substChar (Or.inl (not_mem_map_substChar (Or.inl
      (not_mem_map_substChar (Or.inr rfl) (by decide))) (by decide))) (by decide) hx
  · subst hbs
    exact not_mem_map_substChar (Or.inl (not_mem_map_substChar (Or.inr rfl) (by decide)))
      (by decide) hx
  · subst hsl
    exact not_mem_map_substChar (Or.inr rfl) (by decide) hx

/-- No replaced character survives `OpenTsdbWriter::EscapeMetric`. -/
theorem opentsdb_escapeMetric_no_special (s : String) :
    ∀ x ∈ (OpenTsdbWriter.EscapeMetric s).data,
      x ≠ ' ' ∧ x ≠ '.' ∧ x ≠ '\\' ∧ x ≠ ':' := by
  rw [data_opentsdb_escapeMetric]
  intro x hx
  refine ⟨fun hsp => ?_, fun hdot => ?_, fun hbs => ?_, fun hco => ?_⟩
  · subst hsp
    exact not_mem_map_substChar (Or.inl (not_mem_map_substChar (Or.inl
      (not_mem_map_substChar (Or.inl (not_mem_map_substChar (Or.inr rfl) (by decide)))
        (by decide))) (by decide))) (by decide) hx
  · subst hdot
    exact not_mem_map_substChar (Or.inl (not_mem_map_substChar (Or.inl
      (not_mem_map_substChar (Or.inr rfl) (by decide))) (by decide))) (by decide) hx
  · subst hbs
    exact not_mem_map_substChar (Or.inl (not_mem_map_substChar (Or.inr rfl) (by decide)))
      (by decide) hx
  · subst hco
    exact not_mem_map_substChar (Or.inr rfl) (by decide) hx

/-- No single-character-replaced character survives
`GraphiteWriter::EscapeMetricLabel`. -/
theorem graphite_escapeMetricLabel_no_special (s : String) :
    ∀ x ∈ (GraphiteWriter.EscapeMetricLabel s).data,
      x ≠ ' ' ∧ x ≠ '\\' ∧ x ≠ '/' := by
  rw [data_graphite_escapeMetricLabel]
  intro x hx
  rcases mem_replaceColons hx with hmem | rfl
  · refine ⟨fun hsp => ?_, fun hbs => ?_, fun hsl => ?_⟩
    · subst hsp
      exact not_mem_map_substChar (Or.inl (not_mem_map_substChar (Or.inl
        (not_mem_map_substChar (Or.inr rfl) (by decide))) (by decide))) (by decide) hmem
    · subst hbs
      exact not_mem_map_substChar (Or.inl (not_mem_map_substChar (Or.inr rfl) (by decide)))
        (by decide) hmem
    · subst hsl
      exact not_mem_map_substChar (Or.inr rfl) (by decide) hmem
  · exact ⟨by decide, by decide, by decide⟩

theorem graphite_escapeMetric_idem (s : String) :
    GraphiteWriter.EscapeMetric (GraphiteWriter.EscapeMetric s) =
      GraphiteWriter.EscapeMetric s := by
  apply String.ext
  rw [data_graphite_escapeMetric (GraphiteWriter.EscapeMetric s)]
  have h := graphite_escapeMetric_no_special s
  rw [map_substChar_id (fun hmem => ((h _ hmem).1 rfl)),
    map_substChar_id (fun hmem => ((h _ hmem).2.1 rfl)),
    map_substChar_id (fun hmem => ((h _ hmem).2.2.1 rfl)),
    map_substChar_id (fun hmem => ((h _ hmem).2.2.2 rfl))]

theorem opentsdb_escapeMetric_idem (s : String) :
    OpenTsdbWriter.EscapeMetric (OpenTsdbWriter.EscapeMetric s) =
      OpenTsdbWriter.EscapeMetric s := by
  apply String.ext
  rw [data_opentsdb_escapeMetric (OpenTsdbWriter.EscapeMetric s)]
  have h := opentsdb_escapeMetric_no_special s
  rw [map_substChar_id (fun hmem => ((h _ hmem).1 rfl)),
    map_substChar_id (fun hmem => ((h _ hmem).2.1 rfl)),
    map_substChar_id (fun hmem => ((h _ hmem).2.2.1 rfl)),
    map_substChar_id (fun hmem => ((h _ hmem).2.2.2 rfl))]

theorem graphite_escapeMetricLabel_idem (s : String) :
    GraphiteWriter.EscapeMetricLabel (GraphiteWriter.EscapeMetricLabel s) =
      GraphiteWriter.EscapeMetricLabel s := by
  apply String.ext
  rw [data_graphite_escapeMetricLabel (GraphiteWriter.EscapeMetricLabel s)]
  have h := graphite_escapeMetricLabel_no_special s
  rw [map_substChar_id (fun hmem => ((h _ hmem).1 rfl)),
    map_substChar_id (fun hmem => ((h _ hmem).2.1 rfl)),
    map_substChar_id (fun hmem => ((h _ hmem).2.2 rfl))]
  rw [data_graphite_escapeMetricLabel s]
  exact replaceColons_id (replaceColons_noAdjColons _)

/-- C7: the escape functions are pure functions of their input string (they
are Lean functions by construction) with `escape-metric("a b.c") = "a_b_c"`,
`escape-metric-label("a b::c") = "a_b.c"`, `escape-tsdb-metric("a:b") =
"a_b"`, and each of the three is idempotent. -/
theorem escape_functions_pure_and_idempotent :
    GraphiteWriter.EscapeMetric "a b.c" = "a_b_c"
  ∧ GraphiteWriter.EscapeMetricLabel "a b::c" = "a_b.c"
  ∧ OpenTsdbWriter.EscapeMetric "a:b" = "a_b"
  ∧ (∀ s, GraphiteWriter.EscapeMetric (GraphiteWriter.EscapeMetric s) =
      GraphiteWriter.EscapeMetric s)
  ∧ (∀ s, GraphiteWriter.EscapeMetricLabel (GraphiteWriter.EscapeMetricLabel s) =
      GraphiteWriter.EscapeMetricLabel s)
  ∧ (∀ s, OpenTsdbWriter.EscapeMetric (OpenTsdbWriter.EscapeMetric s) =
      OpenTsdbWriter.EscapeMetric s) :=
  ⟨by decide, by decide, by decide, graphite_escapeMetric_idem,
    graphite_escapeMetricLabel_idem, opentsdb_escapeMetric_idem⟩

/-- C10: for every perfdata label, the escaped key built by
`OpenTsdbWriter::SendPerfdata` from `EscapeMetric` contains no `' '`, `'.'`,
`'\'` or `':'`, hence the subsequent `replace_all(escaped_key, "::", ".")` is
the identity on it; a label containing `"::"` maps to `"__"`, never to
`"."`. -/
theorem opentsdb_perfdata_key_colon_free :
    (∀ label x, x ∈ (OpenTsdbWriter.EscapeMetric label).data →
      x ≠ ' ' ∧ x ≠ '.' ∧ x ≠ '\\' ∧ x ≠ ':')
  ∧ (∀ label, OpenTsdbWriter.escapedPerfdataKey label = OpenTsdbWriter.EscapeMetric label)
  ∧ OpenTsdbWriter.escapedPerfdataKey "a::b" = "a__b"
  ∧ OpenTsdbWriter.escapedPerfdataKey "a::b" ≠ "a.b" := by
  refine ⟨fun label x hx => opentsdb_escapeMetric_no_special label x hx, fun label => ?_,
    by decide, by decide⟩
  unfold OpenTsdbWriter.escapedPerfdataKey
  apply String.ext
  rw [data_replace_colons]
  exact replaceColons_id (noAdjColons_of_no_colon
    (fun a ha => (opentsdb_escapeMetric_no_special label a ha).2.2.2))

/-- Witness for `opentsdb_perfdata_key_colon_free` at the concrete label
`"a:b"` and character `'a'`. -/
theorem opentsdb_perfdata_key_colon_free_witness :
    ('a' ∈ (OpenTsdbWriter.EscapeMetric "a:b").data)
  ∧ ('a' ≠ ' ' ∧ 'a' ≠ '.' ∧ 'a' ≠ '\\' ∧ 'a' ≠ ':')
  ∧ OpenTsdbWriter.escapedPerfdataKey "a:b" = OpenTsdbWriter.EscapeMetric "a:b" :=
  ⟨by decide, opentsdb_perfdata_key_colon_free.1 "a:b" 'a' (by decide),
    opentsdb_perfdata_key_colon_free.2.1 "a:b"⟩

/-! ### The mapping sort invariant -/

namespace Dictionary

theorem mem_uniqueAdjGo {x : DictionaryPair} :
    ∀ {l : DictionaryData} {last : DictionaryPair}, x ∈ uniqueAdjGo last l → x ∈ l := by
  intro l
  induction l with
  | nil => intro last h; exact absurd h (List.not_mem_nil x)
  | cons q rest ih =>
    intro last h
    simp only [uniqueAdjGo] at h
    by_cases hq : q.1 = last.1
    · simp only [hq, if_true] at h
      exact List.mem_cons_of_mem q (ih h)
    · simp only [hq, if_false] at h
      rcases List.mem_cons.mp h with rfl | h'
      · exact List.mem_cons_self _ _
      · exact List.mem_cons_of_mem q (ih h')

theorem sortedKeys_cons_uniqueAdjGo :
    ∀ (l : DictionaryData) (last : DictionaryPair), List.Pairwise keyLE (last :: l) →
      SortedKeys (last :: uniqueAdjGo last l) := by
  intro l
  induction l with
  | nil =>
    intro last _
    simp [uniqueAdjGo, SortedKeys]
  | cons q rest ih =>
    intro last h
    simp only [uniqueAdjGo]
    by_cases hq : q.1 = last.1
    · simp only [hq, if_true]
      refine ih last (h.sublist ?_)
      exact List.Sublist.cons₂ last (List.sublist_cons_self q rest)
    · simp only [hq, if_false]
      have hle : keyLE last q := (List.pairwise_cons.mp h).1 q (List.mem_cons_self q rest)
      have hlt : strLt last.1 q.1 = true := by
        rcases strLt_trichotomy last.1 q.1 with h' | h' | h'
        · exact h'
        · rw [hle] at h'
          exact absurd h' (by simp)
        · exact absurd h'.symm hq
      have htail : List.Pairwise keyLE (q :: rest) := (List.pairwise_cons.mp h).2
      have hrec : SortedKeys (q :: uniqueAdjGo q rest) := ih q htail
      refine List.pairwise_cons.mpr ⟨?_, hrec⟩
      intro x hx
      rcases List.mem_cons.mp hx with rfl | hx'
      · exact hlt
      · have hxrest : x ∈ rest := mem_uniqueAdjGo hx'
        have hxle : keyLE q x := (List.pairwise_cons.mp htail).1 x hxrest
        exact strLt_of_lt_of_nlt hlt hxle

theorem sortedKeys_uniqueAdj {l : DictionaryData} (h : List.Pairwise keyLE l) :
    SortedKeys (uniqueAdj l) := by
  cases l with
  | nil => simp [uniqueAdj, SortedKeys]
  | cons p rest => exact sortedKeys_cons_uniqueAdjGo rest p h

theorem sortedKeys_ofData (data : DictionaryData) : SortedKeys (ofData data) := by
  haveI : IsTotal DictionaryPair keyLE := ⟨fun a b => by
    cases h : strLt b.1 a.1 with
    | false => exact Or.inl h
    | true => exact Or.inr (strLt_asymm h)⟩
  haveI : IsTrans DictionaryPair keyLE := ⟨fun a b c h₁ h₂ => strLt_le_trans h₁ h₂⟩
  exact sortedKeys_uniqueAdj (List.sorted_insertionSort keyLE data)

theorem mem_set {x : DictionaryPair} :
    ∀ {d : DictionaryData} {k : String} {v : Value}, x ∈ set d k v → x ∈ d ∨ x = (k, v) := by
  intro d
  induction d with
  | nil =>
    intro k v h
    simp only [set, List.mem_singleton] at h
    exact Or.inr h
  | cons p rest ih =>
    intro k v h
    simp only [set] at h
    by_cases hlt : strLt p.1 k = true
    · simp only [hlt, if_true] at h
      rcases List.mem_cons.mp h with rfl | h'
      · exact Or.inl (List.mem_cons_self _ _)
      · rcases ih h' with h'' | h''
        · exact Or.inl (List.mem_cons_of_mem p h'')
        · exact Or.inr h''
    · simp only [hlt, if_false] at h
      by_cases heq : p.1 = k
      · simp only [heq, if_true] at h
        rcases List.mem_cons.mp h with rfl | h'
        · exact Or.inr rfl
        · exact Or.inl (List.mem_cons_of_mem p h')
      · simp only [heq, if_false] at h
        rcases List.mem_cons.mp h with rfl | h'
        · exact Or.inr rfl
        · exact Or.inl h'

theorem sortedKeys_set (k : String) (v : Value) :
    ∀ {d : DictionaryData}, SortedKeys d → SortedKeys (set d k v) := by
  intro d
  induction d with
  | nil =>
    intro _
    simp [set, SortedKeys]
  | cons p rest ih =>
    intro h
    have hhead : ∀ x ∈ rest, strLt p.1 x.1 = true := (List.pairwise_cons.mp h).1
    have htail : SortedKeys rest := (List.pairwise_cons.mp h).2
    simp only [set]
    by_cases hlt : strLt p.1 k = true
    · simp only [hlt, if_true]
      refine List.pairwise_cons.mpr ⟨?_, ih htail⟩
      intro x hx
      rcases mem_set hx with h' | rfl
      · exact hhead x h'
      · exact hlt
    · simp only [hlt, if_false]
      by_cases heq : p.1 = k
      · simp only [heq, if_true]
        refine List.pairwise_cons.mpr ⟨?_, htail⟩
        intro x hx
        rw [← heq]
        exact hhead x hx
      · simp only [heq, if_false]
        have hklt : strLt k p.1 = true := by
          rcases strLt_trichotomy p.1 k with h' | h' | h'
          · exact absurd h' hlt
          · exact h'
          · exact absurd h' heq
        refine List.pairwise_cons.mpr ⟨?_, h⟩
        intro x hx
        rcases List.mem_cons.mp hx with rfl | hx'
        · exact hklt
        · exact strLt_trans hklt (hhead x hx')

theorem remove_sublist : ∀ (d : DictionaryData) (k : String), List.Sublist (remove d k) d := by
  intro d
  induction d with
  | nil => intro k; simp [remove]
  | cons p rest ih =>
    intro k
    simp only [remove]
    by_cases hlt : strLt p.1 k = true
    · simp only [hlt, if_true]
      exact List.Sublist.cons₂ p (ih k)
    · simp only [hlt, if_false]
      by_cases heq : p.1 = k
      · simp only [heq, if_true]
        exact List.sublist_cons_self p rest
      · simp only [heq, if_false]
        exact List.Sublist.refl _

theorem sortedKeys_remove (k : String) {d : DictionaryData} (h : SortedKeys d) :
    SortedKeys (remove d k) :=
  List.Pairwise.sublist (remove_sublist d k) h

theorem sortedKeys_copyTo (src : DictionaryData) :
    ∀ {dest : DictionaryData}, SortedKeys dest → SortedKeys (copyTo src dest) := by
  induction src with
  | nil => intro dest h; exact h
  | cons p rest ih =>
    intro dest h
    exact ih (sortedKeys_set p.1 p.2 h)

end Dictionary

/-- C5: every mapping snapshot reachable by any sequence of mapping
operations (construction, set, remove, clear, copy-to, shallow-clone,
clone) has strictly ascending keys. -/
theorem dictionary_sort_invariant :
    ∀ d : DictionaryData, Dictionary.Reachable d → Dictionary.SortedKeys d := by
  intro d h
  induction h with
  | empty => simp [Dictionary.SortedKeys]
  | construct data => exact Dictionary.sortedKeys_ofData data
  | set d k v _ ih => exact Dictionary.sortedKeys_set k v ih
  | remove d k _ ih => exact Dictionary.sortedKeys_remove k ih
  | copyTo src d _ ih => exact Dictionary.sortedKeys_copyTo src ih
  | shallowClone d => exact Dictionary.sortedKeys_ofData d
  | clone d => exact Dictionary.sortedKeys_ofData _

/-- Witness for `dictionary_sort_invariant`: a concrete operation sequence
(construct from an unsorted list, set, remove) reaches a sorted snapshot. -/
theorem dictionary_sort_invariant_witness :
    Dictionary.SortedKeys
      (Dictionary.remove
        (Dictionary.set
          (Dictionary.ofData [("b", Value.number 2), ("a", Value.number 1)])
          "c" (Value.number 3))
        "b") :=
  dictionary_sort_invariant _
    (Dictionary.Reachable.remove _ _
      (Dictionary.Reachable.set _ _ _
        (Dictionary.Reachable.construct _)))

/-! ### Construction keeps the first occurrence of each key -/

namespace Dictionary

theorem pairwise_keyLE_of_const_key {c : DictionaryData} (k : String)
    (h : ∀ x ∈ c, x.1 = k) : c.Pairwise keyLE := by
  induction c with
  | nil => simp
  | cons x rest ih =>
    refine List.pairwise_cons.mpr ⟨?_, ih fun y hy => h y (List.mem_cons_of_mem x hy)⟩
    intro y hy
    show strLt y.1 x.1 = false
    rw [h x (List.mem_cons_self x rest), h y (List.mem_cons_of_mem x hy)]
    exact strLt_irrefl k

theorem filter_insertionSort_key (data : DictionaryData) (k : String) :
    (List.insertionSort keyLE data).filter (fun p => k == p.1) =
      data.filter (fun p => k == p.1) := by
  have hconst : ∀ x ∈ data.filter (fun p => k == p.1), x.1 = k := by
    intro x hx
    have := List.of_mem_filter hx
    exact (beq_iff_eq.mp this).symm
  have hpw : (data.filter (fun p => k == p.1)).Pairwise keyLE :=
    pairwise_keyLE_of_const_key k hconst
  have h1 : List.Sublist (data.filter (fun p => k == p.1)) (List.insertionSort keyLE data) :=
    List.sublist_insertionSort hpw (List.filter_sublist data)
  have h2 : List.Sublist (data.filter (fun p => k == p.1))
      ((List.insertionSort keyLE data).filter (fun p => k == p.1)) := by
    have := List.Sublist.filter (fun p : DictionaryPair => k == p.1) h1
    simp only [List.filter_filter, Bool.and_self] at this
    exact this
  have h3 : ((List.insertionSort keyLE data).filter (fun p => k == p.1)).length =
      (data.filter (fun p => k == p.1)).length :=
    ((List.perm_insertionSort keyLE data).filter _).length_eq
  exact (h2.eq_of_length h3.symm).symm

theorem lookup_eq_filter_head (l : DictionaryData) (k : String) :
    l.lookup k = ((l.filter (fun p => k == p.1)).head?).map Prod.snd := by
  induction l with
  | nil => rfl
  | cons p rest ih =>
    cases p with
    | mk a b =>
      by_cases h : (k == a) = true
      · simp [List.lookup, h]
      · simp only [List.lookup, h, Bool.false_eq_true, if_false, List.filter_cons]
        simpa [h] using ih

theorem lookup_cons_uniqueAdjGo :
    ∀ (l : DictionaryData) (last : DictionaryPair) (k : String),
      (last :: uniqueAdjGo last l).lookup k = (last :: l).lookup k := by
  intro l
  induction l with
  | nil => intro last k; rfl
  | cons q rest ih =>
    intro last k
    simp only [uniqueAdjGo]
    by_cases hq : q.1 = last.1
    · simp only [hq, if_true]
      rw [ih last k]
      obtain ⟨a, v⟩ := last
      obtain ⟨b, w⟩ := q
      simp only at hq
      subst hq
      by_cases hk : (k == b) = true
      · simp [List.lookup, hk]
      · have hkb : (k == b) = false := by simpa using hk
        simp [List.lookup, hkb]
    · simp only [hq, if_false]
      obtain ⟨a, v⟩ := last
      by_cases hk : (k == a) = true
      · simp [List.lookup, hk]
      · have hkb : (k == a) = false := by simpa using hk
        simp only [List.lookup, hkb, Bool.false_eq_true, if_false]
        exact ih q k

theorem lookup_uniqueAdj (l : DictionaryData) (k : String) :
    (uniqueAdj l).lookup k = l.lookup k := by
  cases l with
  | nil => rfl
  | cons p rest => exact lookup_cons_uniqueAdjGo rest p k

end Dictionary

/-- C1: constructing a mapping from a sequence of pairs deduplicates keys
keeping the first occurrence in input order: the constructed snapshot's
lookup agrees with first-match lookup on the input, the constructed keys are
duplicate-free, and `[(a,1),(b,2),(a,3)]` yields exactly
`[(a,1),(b,2)]`. -/
theorem dictionary_construct_dedup_first_wins :
    (∀ (data : DictionaryData) (k : String),
      (Dictionary.ofData data).lookup k = data.lookup k)
  ∧ (∀ data : DictionaryData, ((Dictionary.ofData data).map Prod.fst).Nodup)
  ∧ Dictionary.ofData [("a", Value.number 1), ("b", Value.number 2), ("a", Value.number 3)]
      = [("a", Value.number 1), ("b", Value.number 2)] := by
  refine ⟨fun data k => ?_, fun data => ?_, by decide⟩
  · show (Dictionary.uniqueAdj (List.insertionSort Dictionary.keyLE data)).lookup k = _
    rw [Dictionary.lookup_uniqueAdj, Dictionary.lookup_eq_filter_head,
      Dictionary.filter_insertionSort_key, ← Dictionary.lookup_eq_filter_head]
  · have hs := Dictionary.sortedKeys_ofData data
    rw [List.Nodup, List.pairwise_map]
    refine hs.imp ?_
    intro a b hab heq
    rw [heq] at hab
    rw [strLt_irrefl] at hab
    exact Bool.false_ne_true hab

/-! ### The dynamic array operations -/

/-- C4: `Array::Insert` fails for `i > len`; `i = len` appends; for
`i ≤ len` the new snapshot has length `len + 1`, keeps positions below `i`,
holds `v` at position `i`, and shifts the remaining elements right by
one. -/
theorem array_insert_shifts (data : List Value) (i : ℕ) (v : Value) :
    (data.length < i → Array.Insert data i v = none)
  ∧ (i = data.length → Array.Insert data i v = some (data ++ [v]))
  ∧ (i ≤ data.length → ∃ r, Array.Insert data i v = some r
      ∧ r.length = data.length + 1
      ∧ (∀ j, j < i → r.getD j Value.empty = data.getD j Value.empty)
      ∧ r.getD i Value.empty = v
      ∧ (∀ j, i ≤ j → j < data.length →
          r.getD (j + 1) Value.empty = data.getD j Value.empty)) := by
  refine ⟨fun hgt => ?_, fun heq => ?_, fun hle => ?_⟩
  · unfold Array.Insert
    rw [if_neg (by omega)]
  · subst heq
    unfold Array.Insert
    rw [if_pos le_rfl, List.take_length, List.drop_length]
  · have hins : Array.Insert data i v = some (data.take i ++ v :: data.drop i) := by
      unfold Array.Insert
      rw [if_pos hle]
    have htk : (data.take i).length = i := by
      rw [List.length_take]
      omega
    refine ⟨data.take i ++ v :: data.drop i, hins, ?_, ?_, ?_, ?_⟩
    · simp only [List.length_append, List.length_cons, List.length_drop, htk]
      omega
    · intro j hj
      rw [List.getD_eq_getElem?_getD, List.getD_eq_getElem?_getD,
        List.getElem?_append_left (by rw [htk]; omega), List.getElem?_take]
      rw [if_pos hj]
    · rw [List.getD_eq_getElem?_getD,
        List.getElem?_append_right (by rw [htk]),
        htk, Nat.sub_self, List.getElem?_cons_zero]
      rfl
    · intro j hij hjlen
      rw [List.getD_eq_getElem?_getD, List.getD_eq_getElem?_getD,
        List.getElem?_append_right (by rw [htk]; omega), htk]
      have hidx : j + 1 - i = (j - i) + 1 := by omega
      rw [hidx, List.getElem?_cons_succ, List.getElem?_drop]
      have : i + (j - i) = j := by omega
      rw [this]

/-- Witness for `array_insert_shifts` on the two-element array `[1, 2]`:
inserting at 3 fails, at 2 appends, and at 1 shifts. -/
theorem array_insert_shifts_witness :
    Array.Insert [Value.number 1, Value.number 2] 3 (Value.number 9) = none
  ∧ Array.Insert [Value.number 1, Value.number 2] 2 (Value.number 9) =
      some [Value.number 1, Value.number 2, Value.number 9]
  ∧ ∃ r, Array.Insert [Value.number 1, Value.number 2] 1 (Value.number 9) = some r
      ∧ r.length = 3
      ∧ (∀ j, j < 1 → r.getD j Value.empty =
          ([Value.number 1, Value.number 2] : List Value).getD j Value.empty)
      ∧ r.getD 1 Value.empty = Value.number 9
      ∧ (∀ j, 1 ≤ j → j < 2 → r.getD (j + 1) Value.empty =
          ([Value.number 1, Value.number 2] : List Value).getD j Value.empty) :=
  ⟨(array_insert_shifts _ 3 _).1 (by decide),
    (array_insert_shifts _ 2 _).2.1 (by decide),
    (array_insert_shifts [Value.number 1, Value.number 2] 1 (Value.number 9)).2.2 (by decide)⟩

/-- C6 counterexample: `set-field-by-name("4294967296", v)` on the empty
array.  The string parses as the nonnegative integer `2^32 ≥ len`, so the
claim asserts growth to length `2^32 + 1`; but `int index =
Convert::ToLong(field)` (`array.cpp` line 259) narrows `2^32` to the `int`
`0`, and the program stores `v` at index 0, yielding a snapshot of
length 1. -/
theorem array_setFieldByName_narrowing_counterexample :
    Array.SetFieldByName [] "4294967296" (Value.number 7) ⟨"conf", 1, 2, 3, 4⟩ =
      .ok [Value.number 7] := by
  decide

/-- C6 (amended): `Array::SetFieldByName` with a string parsing as an
integer whose `long` → `int` narrowing `n` is nonnegative with `n ≥ len`
grows the array to length `n + 1`, pads positions from the old length up to
`n - 1` with empty values, and stores `v` at position `n`.  (For indices
below `2^31` — such as the claim's `"5"` — the narrowing is the
identity.) -/
theorem array_setFieldByName_grows (data : List Value) (s : String) (v : Value)
    (di : DebugInfo) (n : ℤ) (hparse : Convert.ToLong s = some n)
    (hpos : 0 ≤ narrowToInt n) (hlen : data.length ≤ (narrowToInt n).toNat) :
    ∃ r, Array.SetFieldByName data s v di = .ok r
      ∧ r.length = (narrowToInt n).toNat + 1
      ∧ (∀ j, data.length ≤ j → j < (narrowToInt n).toNat →
          r.getD j Value.empty = Value.empty)
      ∧ r.getD (narrowToInt n).toNat Value.empty = v := by
  have hneg : ¬ (narrowToInt n < 0) := not_lt.mpr hpos
  have hres : Array.vectorResize data ((narrowToInt n).toNat + 1) =
      data ++ List.replicate ((narrowToInt n).toNat + 1 - data.length) Value.empty := by
    unfold Array.vectorResize
    rw [if_neg (by omega)]
  have hreslen : (Array.vectorResize data ((narrowToInt n).toNat + 1)).length =
      (narrowToInt n).toNat + 1 := by
    rw [hres, List.length_append, List.length_replicate]
    omega
  refine ⟨(Array.vectorResize data ((narrowToInt n).toNat + 1)).set (narrowToInt n).toNat v,
    ?_, ?_, ?_, ?_⟩
  · simp only [Array.SetFieldByName, hparse]
    rw [if_neg hneg, if_pos hlen]
  · rw [List.length_set, hreslen]
  · intro j hj hjn
    rw [List.getD_eq_getElem?_getD, List.getElem?_set_ne (by omega), hres,
      List.getElem?_append_right (by omega), List.getElem?_replicate,
      if_pos (by omega : j - data.length < (narrowToInt n).toNat + 1 - data.length)]
    rfl
  · rw [List.getD_eq_getElem?_getD, List.getElem?_set_self (by rw [hreslen]; omega)]
    rfl

/-- Witness for `array_setFieldByName_grows`: `set-field-by-name("5", 7)` on
the empty array. -/
theorem array_setFieldByName_grows_witness :
    ∃ r, Array.SetFieldByName [] "5" (Value.number 7) ⟨"conf", 1, 2, 3, 4⟩ = .ok r
      ∧ r.length = (narrowToInt 5).toNat + 1
      ∧ (∀ j, List.length ([] : List Value) ≤ j → j < (narrowToInt 5).toNat →
          r.getD j Value.empty = Value.empty)
      ∧ r.getD (narrowToInt 5).toNat Value.empty = Value.number 7 :=
  array_setFieldByName_grows [] "5" (Value.number 7) ⟨"conf", 1, 2, 3, 4⟩ 5
    (by decide) (by decide) (by decide)

/-- C8 counterexample: `field-by-name("4294967296")` on a two-element array.
The string parses as the integer `2^32 ≥ len`, so the claim asserts a
`ScriptError`; but `int index = Convert::ToLong(field)` (`array.cpp` line
244) narrows `2^32` to the `int` `0`, and the program returns element 0. -/
theorem array_getFieldByName_narrowing_counterexample :
    Array.GetFieldByName [Value.number 1, Value.number 2] "4294967296"
      ⟨"conf", 1, 2, 3, 4⟩ (.ok (Value.str "fromproto")) = .ok (Value.number 1) := by
  decide

/-- C8 (amended): `Array::GetFieldByName` narrows the parsed `long` to `int`
(`narrowToInt`); it returns the element when the narrowed index is in
bounds, throws `ScriptError` when the narrowed index is negative or not
below the length, and returns the prototype lookup's result when the field
does not parse as an integer.  (For indices below `2^31` — such as the
claim's `"3"` — the narrowing is the identity.) -/
theorem array_getFieldByName_cases (data : List Value) (s : String) (di : DebugInfo)
    (proto : Except ScriptingError Value) :
    (∀ n : ℤ, Convert.ToLong s = some n → 0 ≤ narrowToInt n →
      (narrowToInt n).toNat < data.length →
      Array.GetFieldByName data s di proto =
        .ok (data.getD (narrowToInt n).toNat Value.empty))
  ∧ (∀ n : ℤ, Convert.ToLong s = some n →
      (narrowToInt n < 0 ∨ data.length ≤ (narrowToInt n).toNat) →
      Array.GetFieldByName data s di proto =
        .error (.scriptError ("Array index \x27" ++ Convert.ToStringInt (narrowToInt n) ++
          "\x27 is out of bounds.") di))
  ∧ (Convert.ToLong s = none → Array.GetFieldByName data s di proto = proto) := by
  refine ⟨fun n hparse hpos hlt => ?_, fun n hparse hbad => ?_, fun hnone => ?_⟩
  · simp only [Array.GetFieldByName, hparse]
    rw [if_neg (by omega)]
  · simp only [Array.GetFieldByName, hparse]
    rw [if_pos (by omega)]
  · simp only [Array.GetFieldByName, hnone]

/-- Witness for `array_getFieldByName_cases`: `field-by-name("3")` on a
two-element array raises `ScriptError`; `field-by-name("notanindex")`
returns the prototype lookup's result. -/
theorem array_getFieldByName_cases_witness :
    Array.GetFieldByName [Value.number 1, Value.number 2] "3" ⟨"conf", 1, 2, 3, 4⟩
      (.ok (Value.str "fromproto")) =
      .error (.scriptError ("Array index \x27" ++ Convert.ToStringInt (narrowToInt 3) ++
        "\x27 is out of bounds.") ⟨"conf", 1, 2, 3, 4⟩)
  ∧ Array.GetFieldByName [Value.number 1, Value.number 2] "notanindex" ⟨"conf", 1, 2, 3, 4⟩
      (.ok (Value.str "fromproto")) = .ok (Value.str "fromproto") :=
  ⟨(array_getFieldByName_cases [Value.number 1, Value.number 2] "3" ⟨"conf", 1, 2, 3, 4⟩
      (.ok (Value.str "fromproto"))).2.1 3 (by decide) (by decide),
    (array_getFieldByName_cases [Value.number 1, Value.number 2] "notanindex"
      ⟨"conf", 1, 2, 3, 4⟩ (.ok (Value.str "fromproto"))).2.2 (by decide)⟩

/-- C3 counterexample: `set-field-by-name` with the unparseable key `"x"`
fails with the integer conversion's `std::invalid_argument` — not with a
`ScriptError` carrying the caller's debug-info payload, as the claim
states. -/
theorem array_setFieldByName_unparseable_counterexample :
    Array.SetFieldByName [] "x" (Value.number 1) ⟨"conf", 1, 2, 3, 4⟩ =
      .error (.invalidArgument "Can\x27t convert \x27x\x27 to an integer.") := by
  decide

/-- C3 (amended): an unparseable key fails with the integer conversion's
invalid-argument error, which carries no debug-info; a key whose parsed
integer narrows (`long` → `int`) to a negative index fails with
`ScriptError` carrying the caller-provided debug-info payload; in both
cases the operation returns an error and publishes no new snapshot.  (For
keys in `(-2^31, 0)` — plain negative numerals such as `"-1"` — the
narrowing is the identity.) -/
theorem array_setFieldByName_error_cases (data : List Value) (s : String) (v : Value)
    (di : DebugInfo) :
    (Convert.ToLong s = none →
      Array.SetFieldByName data s v di =
        .error (.invalidArgument ("Can\x27t convert \x27" ++ s ++ "\x27 to an integer.")))
  ∧ (∀ n : ℤ, Convert.ToLong s = some n → narrowToInt n < 0 →
      Array.SetFieldByName data s v di =
        .error (.scriptError ("Array index \x27" ++ Convert.ToStringInt (narrowToInt n) ++
          "\x27 is out of bounds.") di)) := by
  refine ⟨fun hnone => ?_, fun n hparse hneg => ?_⟩
  · simp only [Array.SetFieldByName, hnone]
  · simp only [Array.SetFieldByName, hparse]
    rw [if_pos hneg]

/-- Left-cancellation for string append: distinct suffixes after a common
stem give distinct strings. -/
theorem string_append_ne_of_ne {a b : String} (s : String) (h : a ≠ b) :
    s ++ a ≠ s ++ b := by
  intro he
  apply h
  apply String.ext
  have := congrArg String.data he
  simp only [String.data_append] at this
  exact List.append_cancel_left this

/-- Membership in a conditionally emitted single metric. -/
theorem mem_if_singleton {α : Type} {b : Bool} {y x : α}
    (h : x ∈ (if b then [y] else [])) : x = y ∧ b = true := by
  cases b with
  | false => simp at h
  | true =>
    refine ⟨?_, rfl⟩
    simpa using h

/-- Every `SendMetric` call made by the `SendPerfdata` loop body for one
perfdata value is the `.value` call or one of the four guarded threshold
calls. -/
theorem mem_graphite_perfdataCalls {x : String × ℚ} {pdv : PerfdataValue}
    (hx : x ∈ GraphiteWriter.perfdataCalls true pdv) :
    x = (GraphiteWriter.EscapeMetricLabel pdv.label ++ ".value", pdv.value)
  ∨ (x = (GraphiteWriter.EscapeMetricLabel pdv.label ++ ".crit",
      valueToDouble pdv.crit) ∧ valueTruthy pdv.crit = true)
  ∨ (x = (GraphiteWriter.EscapeMetricLabel pdv.label ++ ".warn",
      valueToDouble pdv.warn) ∧ valueTruthy pdv.warn = true)
  ∨ (x = (GraphiteWriter.EscapeMetricLabel pdv.label ++ ".min",
      valueToDouble pdv.min) ∧ valueTruthy pdv.min = true)
  ∨ (x = (GraphiteWriter.EscapeMetricLabel pdv.label ++ ".max",
      valueToDouble pdv.max) ∧ valueTruthy pdv.max = true) := by
  simp only [GraphiteWriter.perfdataCalls, if_true] at hx
  rcases List.mem_cons.mp hx with rfl | hx'
  · exact Or.inl rfl
  rcases List.mem_append.mp hx' with h1 | hX
  · rcases List.mem_append.mp h1 with h2 | hM
    · rcases List.mem_append.mp h2 with hC | hW
      · exact Or.inr (Or.inl (mem_if_singleton hC))
      · exact Or.inr (Or.inr (Or.inl (mem_if_singleton hW)))
    · exact Or.inr (Or.inr (Or.inr (Or.inl (mem_if_singleton hM))))
  · exact Or.inr (Or.inr (Or.inr (Or.inr (mem_if_singleton hX))))

/-- Witness for `array_setFieldByName_error_cases` at the negative key
`"-1"` and the unparseable key `"y"`. -/
theorem array_setFieldByName_error_cases_witness :
    Array.SetFieldByName [] "-1" (Value.number 1) ⟨"conf", 1, 2, 3, 4⟩ =
      .error (.scriptError ("Array index \x27" ++ Convert.ToStringInt (narrowToInt (-1)) ++
        "\x27 is out of bounds.") ⟨"conf", 1, 2, 3, 4⟩)
  ∧ Array.SetFieldByName [] "y" (Value.number 1) ⟨"conf", 1, 2, 3, 4⟩ =
      .error (.invalidArgument ("Can\x27t convert \x27" ++ "y" ++ "\x27 to an integer.")) :=
  ⟨(array_setFieldByName_error_cases [] "-1" (Value.number 1) ⟨"conf", 1, 2, 3, 4⟩).2
      (-1) (by decide) (by decide),
    (array_setFieldByName_error_cases [] "y" (Value.number 1) ⟨"conf", 1, 2, 3, 4⟩).1
      (by decide)⟩

/-- C9: with send-thresholds enabled, the Graphite `SendPerfdata` loop body
always emits the `.value` metric for a parsed perfdata value, and emits each
of `.crit`, `.warn`, `.min`, `.max` if and only if the corresponding
threshold value is truthy (present and nonzero); in particular `crit = 0`
emits no `.crit` metric. -/
theorem graphite_perfdata_threshold_lines (pdv : PerfdataValue) :
    ((GraphiteWriter.EscapeMetricLabel pdv.label ++ ".value", pdv.value) ∈
      GraphiteWriter.perfdataCalls true pdv)
  ∧ ((∃ c, (GraphiteWriter.EscapeMetricLabel pdv.label ++ ".crit", c) ∈
      GraphiteWriter.perfdataCalls true pdv) ↔ valueTruthy pdv.crit = true)
  ∧ ((∃ c, (GraphiteWriter.EscapeMetricLabel pdv.label ++ ".warn", c) ∈
      GraphiteWriter.perfdataCalls true pdv) ↔ valueTruthy pdv.warn = true)
  ∧ ((∃ c, (GraphiteWriter.EscapeMetricLabel pdv.label ++ ".min", c) ∈
      GraphiteWriter.perfdataCalls true pdv) ↔ valueTruthy pdv.min = true)
  ∧ ((∃ c, (GraphiteWriter.EscapeMetricLabel pdv.label ++ ".max", c) ∈
      GraphiteWriter.perfdataCalls true pdv) ↔ valueTruthy pdv.max = true) := by
  have hfst : ∀ {x y : String × ℚ}, x = y → x.1 = y.1 := fun h => congrArg Prod.fst h
  refine ⟨List.mem_cons_self _ _, ⟨?_, ?_⟩, ⟨?_, ?_⟩, ⟨?_, ?_⟩, ⟨?_, ?_⟩⟩
  · rintro ⟨c, hc⟩
    rcases mem_graphite_perfdataCalls hc with h | ⟨h, ht⟩ | ⟨h, ht⟩ | ⟨h, ht⟩ | ⟨h, ht⟩
    · exact absurd (hfst h) (string_append_ne_of_ne _ (by decide))
    · exact ht
    · exact absurd (hfst h) (string_append_ne_of_ne _ (by decide))
    · exact absurd (hfst h) (string_append_ne_of_ne _ (by decide))
    · exact absurd (hfst h) (string_append_ne_of_ne _ (by decide))
  · intro h
    refine ⟨valueToDouble pdv.crit, ?_⟩
    refine List.mem_cons_of_mem _ (List.mem_append_left _ (List.mem_append_left _
      (List.mem_append_left _ ?_)))
    rw [if_pos h]
    exact List.mem_singleton_self _
  · rintro ⟨c, hc⟩
    rcases mem_graphite_perfdataCalls hc with h | ⟨h, ht⟩ | ⟨h, ht⟩ | ⟨h, ht⟩ | ⟨h, ht⟩
    · exact absurd (hfst h) (string_append_ne_of_ne _ (by decide))
    · exact absurd (hfst h) (string_append_ne_of_ne _ (by decide))
    · exact ht
    · exact absurd (hfst h) (string_append_ne_of_ne _ (by decide))
    · exact absurd (hfst h) (string_append_ne_of_ne _ (by decide))
  · intro h
    refine ⟨valueToDouble pdv.warn, ?_⟩
    refine List.mem_cons_of_mem _ (List.mem_append_left _ (List.mem_append_left _
      (List.mem_append_right _ ?_)))
    rw [if_pos h]
    exact List.mem_singleton_self _
  · rintro ⟨c, hc⟩
    rcases mem_graphite_perfdataCalls hc with h | ⟨h, ht⟩ | ⟨h, ht⟩ | ⟨h, ht⟩ | ⟨h, ht⟩
    · exact absurd (hfst h) (string_append_ne_of_ne _ (by decide))
    · exact absurd (hfst h) (string_append_ne_of_ne _ (by decide))
    · exact absurd (hfst h) (string_append_ne_of_ne _ (by decide))
    · exact ht
    · exact absurd (hfst h) (string_append_ne_of_ne _ (by decide))
  · intro h
    refine ⟨valueToDouble pdv.min, ?_⟩
    refine List.mem_cons_of_mem _ (List.mem_append_left _ (List.mem_append_right _ ?_))
    rw [if_pos h]
    exact List.mem_singleton_self _
  · rintro ⟨c, hc⟩
    rcases mem_graphite_perfdataCalls hc with h | ⟨h, ht⟩ | ⟨h, ht⟩ | ⟨h, ht⟩ | ⟨h, ht⟩
    · exact absurd (hfst h) (string_append_ne_of_ne _ (by decide))
    · exact absurd (hfst h) (string_append_ne_of_ne _ (by decide))
    · exact absurd (hfst h) (string_append_ne_of_ne _ (by decide))
    · exact absurd (hfst h) (string_append_ne_of_ne _ (by decide))
    · exact ht
  · intro h
    refine ⟨valueToDouble pdv.max, ?_⟩
    refine List.mem_cons_of_mem _ (List.mem_append_right _ ?_)
    rw [if_pos h]
    exact List.mem_singleton_self _

/-- C2 (code bug): the OpenTSDB line for a service state emission.
`OpenTsdbWriter::SendMetric` streams an explicit `" "` before `tags_string`
(`opentsdbwriter.cpp` line 227), but `tags_string` itself already starts
with a space for its first tag (line 218), so the emitted line carries *two*
spaces between the value and the first tag — not the single-space format
`put <metric> <ts> <value> k1=v1\n` documented in the comment directly above
it (lines 222–226) and stated by the claim. -/
theorem opentsdb_sendMetric_line_double_space :
    OpenTsdbWriter.sendMetricLine "icinga.service.cpu.state" [("host", "db-01")]
      2 1600000000 = "put icinga.service.cpu.state 1600000000 2  host=db-01\n"
  ∧ OpenTsdbWriter.sendMetricLine "icinga.service.cpu.state" [("host", "db-01")]
      2 1600000000 ≠ "put icinga.service.cpu.state 1600000000 2 host=db-01\n" := by
  exact ⟨by decide, by decide⟩

end Icinga
